import Mathlib

/-!
Verification of the BeamMe finite-rotation specification.

The repository snapshot exposes the `Rotation` class of `beamme.core.rotation`
only through its tutorial notebook and the natural-language specification;
the class itself is not among the provided source files.  Following the
specification, the class is modelled here over exact real numbers: a
`Rotation` stores a quaternion, constructors normalize their input, invalid
inputs raise `InvalidArgument` (modelled with `Except`), and all operations
are pure functions of the stored quaternion.
-/

noncomputable section

open Real

/-- A Cartesian vector in three dimensions, the dense 3-vector primitive the
specification assumes from the surrounding linear-algebra layer. -/
structure Vec3 where
  x : ℝ
  y : ℝ
  z : ℝ
deriving DecidableEq

/-- The zero 3-vector. -/
def Vec3.zero : Vec3 := ⟨0, 0, 0⟩

/-- Scalar multiplication of a 3-vector. -/
def Vec3.smul (c : ℝ) (v : Vec3) : Vec3 := ⟨c * v.x, c * v.y, c * v.z⟩

/-- Euclidean inner product of two 3-vectors. -/
def Vec3.dot (a b : Vec3) : ℝ := a.x * b.x + a.y * b.y + a.z * b.z

/-- Cross product of two 3-vectors. -/
def Vec3.cross (a b : Vec3) : Vec3 :=
  ⟨a.y * b.z - a.z * b.y, a.z * b.x - a.x * b.z, a.x * b.y - a.y * b.x⟩

/-- Squared Euclidean norm of a 3-vector. -/
def Vec3.normSq (v : Vec3) : ℝ := v.x ^ 2 + v.y ^ 2 + v.z ^ 2

/-- Euclidean norm of a 3-vector. -/
def Vec3.norm (v : Vec3) : ℝ := Real.sqrt v.normSq

/-- The first Cartesian basis vector. -/
def e1 : Vec3 := ⟨1, 0, 0⟩

/-- A quaternion, stored as scalar part `w` and vector part `(x, y, z)`. -/
structure Quat where
  w : ℝ
  x : ℝ
  y : ℝ
  z : ℝ
deriving DecidableEq

/-- Hamilton product of two quaternions. -/
def Quat.mul (p q : Quat) : Quat :=
  ⟨p.w * q.w - p.x * q.x - p.y * q.y - p.z * q.z,
   p.w * q.x + p.x * q.w + p.y * q.z - p.z * q.y,
   p.w * q.y - p.x * q.z + p.y * q.w + p.z * q.x,
   p.w * q.z + p.x * q.y - p.y * q.x + p.z * q.w⟩

/-- Quaternion conjugate: the vector part is negated. -/
def Quat.conj (q : Quat) : Quat := ⟨q.w, -q.x, -q.y, -q.z⟩

/-- Negation of a quaternion. -/
def Quat.neg (q : Quat) : Quat := ⟨-q.w, -q.x, -q.y, -q.z⟩

/-- Scalar multiplication of a quaternion. -/
def Quat.smul (c : ℝ) (q : Quat) : Quat := ⟨c * q.w, c * q.x, c * q.y, c * q.z⟩

/-- Squared norm of a quaternion. -/
def Quat.normSq (q : Quat) : ℝ := q.w ^ 2 + q.x ^ 2 + q.y ^ 2 + q.z ^ 2

/-- Norm of a quaternion. -/
def Quat.norm (q : Quat) : ℝ := Real.sqrt q.normSq

/-- A 3 by 3 real matrix, given entry by entry. -/
structure Mat3 where
  a11 : ℝ
  a12 : ℝ
  a13 : ℝ
  a21 : ℝ
  a22 : ℝ
  a23 : ℝ
  a31 : ℝ
  a32 : ℝ
  a33 : ℝ
deriving DecidableEq

/-- The 3 by 3 identity matrix. -/
def idMat3 : Mat3 := ⟨1, 0, 0, 0, 1, 0, 0, 0, 1⟩

/-- Matrix-vector product. -/
def Mat3.mulVec (m : Mat3) (v : Vec3) : Vec3 :=
  ⟨m.a11 * v.x + m.a12 * v.y + m.a13 * v.z,
   m.a21 * v.x + m.a22 * v.y + m.a23 * v.z,
   m.a31 * v.x + m.a32 * v.y + m.a33 * v.z⟩

/-- Entrywise sum of two 3 by 3 matrices. -/
def Mat3.add (m n : Mat3) : Mat3 :=
  ⟨m.a11 + n.a11, m.a12 + n.a12, m.a13 + n.a13,
   m.a21 + n.a21, m.a22 + n.a22, m.a23 + n.a23,
   m.a31 + n.a31, m.a32 + n.a32, m.a33 + n.a33⟩

/-- Scalar multiple of a 3 by 3 matrix. -/
def Mat3.smul (c : ℝ) (m : Mat3) : Mat3 :=
  ⟨c * m.a11, c * m.a12, c * m.a13,
   c * m.a21, c * m.a22, c * m.a23,
   c * m.a31, c * m.a32, c * m.a33⟩

/-- Matrix product of two 3 by 3 matrices. -/
def Mat3.mul (m n : Mat3) : Mat3 :=
  ⟨m.a11 * n.a11 + m.a12 * n.a21 + m.a13 * n.a31,
   m.a11 * n.a12 + m.a12 * n.a22 + m.a13 * n.a32,
   m.a11 * n.a13 + m.a12 * n.a23 + m.a13 * n.a33,
   m.a21 * n.a11 + m.a22 * n.a21 + m.a23 * n.a31,
   m.a21 * n.a12 + m.a22 * n.a22 + m.a23 * n.a32,
   m.a21 * n.a13 + m.a22 * n.a23 + m.a23 * n.a33,
   m.a31 * n.a11 + m.a32 * n.a21 + m.a33 * n.a31,
   m.a31 * n.a12 + m.a32 * n.a22 + m.a33 * n.a32,
   m.a31 * n.a13 + m.a32 * n.a23 + m.a33 * n.a33⟩

/-- The skew-symmetric operator of an axial 3-vector. -/
def skew (v : Vec3) : Mat3 :=
  ⟨0, -v.z, v.y,
   v.z, 0, -v.x,
   -v.y, v.x, 0⟩

/-- Modelled from the spec: the single error kind of the `Rotation` class,
raised synchronously at construction time when inputs violate preconditions. -/
inductive RotationError where
  | invalidArgument
deriving DecidableEq

/-- Modelled from the spec: the `Rotation` value type of
`beamme.core.rotation` (not among the provided source files).  It represents
an element of the special orthogonal group, canonically stored as a
quaternion `q = (w, x, y, z)` that every constructor normalizes to unit
length. -/
structure Rotation where
  q : Quat
deriving DecidableEq

/-- Modelled from the spec: the default no-argument constructor, producing
the identity rotation with quaternion `(1, 0, 0, 0)`. -/
def Rotation.identity : Rotation := ⟨⟨1, 0, 0, 0⟩⟩

/-- Modelled from the spec: the axis-angle constructor `Rotation(axis, angle)`.
The axis may be non-unit and is normalized internally; a zero axis with a
non-zero angle fails with `InvalidArgument`, while a zero angle always
succeeds and yields the identity rotation regardless of the axis. -/
def Rotation.fromAxisAngle (axis : Vec3) (angle : ℝ) : Except RotationError Rotation :=
  if angle = 0 then .ok .identity
  else if axis = Vec3.zero then .error .invalidArgument
  else
    .ok ⟨⟨Real.cos (angle / 2),
          Real.sin (angle / 2) * axis.x / axis.norm,
          Real.sin (angle / 2) * axis.y / axis.norm,
          Real.sin (angle / 2) * axis.z / axis.norm⟩⟩

/-- Modelled from the spec: `Rotation.from_rotation_vector(psi)`.  The
magnitude of the pseudo-vector is the angle and its direction the axis; the
zero vector yields the identity rotation. -/
def Rotation.from_rotation_vector (psi : Vec3) : Rotation :=
  if psi = Vec3.zero then .identity
  else
    ⟨⟨Real.cos (psi.norm / 2),
      Real.sin (psi.norm / 2) * psi.x / psi.norm,
      Real.sin (psi.norm / 2) * psi.y / psi.norm,
      Real.sin (psi.norm / 2) * psi.z / psi.norm⟩⟩

/-- Modelled from the spec: `Rotation.from_quaternion(q)`.  The input is
normalized on intake by dividing by its norm; a zero-norm input fails with
`InvalidArgument`. -/
def Rotation.from_quaternion (q : Quat) : Except RotationError Rotation :=
  if q.norm = 0 then .error .invalidArgument
  else .ok ⟨Quat.smul (1 / q.norm) q⟩

/-- Modelled from the spec: `Rotation.from_rotation_matrix(R)`, the standard
trace-based quaternion extraction (branch selection on the trace and the
largest diagonal entry, to avoid division by near-zero terms).  Validity of
the input as a rotation matrix is left to the caller. -/
def Rotation.from_rotation_matrix (m : Mat3) : Rotation :=
  if 0 < m.a11 + m.a22 + m.a33 then
    ⟨⟨2 * Real.sqrt (m.a11 + m.a22 + m.a33 + 1) / 4,
      (m.a32 - m.a23) / (2 * Real.sqrt (m.a11 + m.a22 + m.a33 + 1)),
      (m.a13 - m.a31) / (2 * Real.sqrt (m.a11 + m.a22 + m.a33 + 1)),
      (m.a21 - m.a12) / (2 * Real.sqrt (m.a11 + m.a22 + m.a33 + 1))⟩⟩
  else if m.a22 ≤ m.a11 ∧ m.a33 ≤ m.a11 then
    ⟨⟨(m.a32 - m.a23) / (2 * Real.sqrt (1 + m.a11 - m.a22 - m.a33)),
      2 * Real.sqrt (1 + m.a11 - m.a22 - m.a33) / 4,
      (m.a12 + m.a21) / (2 * Real.sqrt (1 + m.a11 - m.a22 - m.a33)),
      (m.a13 + m.a31) / (2 * Real.sqrt (1 + m.a11 - m.a22 - m.a33))⟩⟩
  else if m.a33 ≤ m.a22 then
    ⟨⟨(m.a13 - m.a31) / (2 * Real.sqrt (1 + m.a22 - m.a11 - m.a33)),
      (m.a12 + m.a21) / (2 * Real.sqrt (1 + m.a22 - m.a11 - m.a33)),
      2 * Real.sqrt (1 + m.a22 - m.a11 - m.a33) / 4,
      (m.a23 + m.a32) / (2 * Real.sqrt (1 + m.a22 - m.a11 - m.a33))⟩⟩
  else
    ⟨⟨(m.a21 - m.a12) / (2 * Real.sqrt (1 + m.a33 - m.a11 - m.a22)),
      (m.a13 + m.a31) / (2 * Real.sqrt (1 + m.a33 - m.a11 - m.a22)),
      (m.a23 + m.a32) / (2 * Real.sqrt (1 + m.a33 - m.a11 - m.a22)),
      2 * Real.sqrt (1 + m.a33 - m.a11 - m.a22) / 4⟩⟩

/-- Modelled from the spec: the equality operator of the `Rotation` class.
Two rotations are equal iff their quaternions coincide up to the double-cover
sign ambiguity. -/
def Rotation.eqRot (a b : Rotation) : Prop := a.q = b.q ∨ a.q = Quat.neg b.q

/-- Modelled from the spec: composition `A * B` of two rotations, the
Hamilton product of the underlying quaternions (apply the right operand
first). -/
def Rotation.compose (a b : Rotation) : Rotation := ⟨a.q.mul b.q⟩

/-- Modelled from the spec: inversion `A.inv()`, the quaternion conjugate
(negated vector part). -/
def Rotation.inv (a : Rotation) : Rotation := ⟨a.q.conj⟩

/-- Modelled from the spec: the vector action `A * r`, the sandwich product
`q (0, r) conj q` of which the vector part is returned. -/
def Rotation.act (a : Rotation) (r : Vec3) : Vec3 :=
  ⟨((a.q.mul ⟨0, r.x, r.y, r.z⟩).mul a.q.conj).x,
   ((a.q.mul ⟨0, r.x, r.y, r.z⟩).mul a.q.conj).y,
   ((a.q.mul ⟨0, r.x, r.y, r.z⟩).mul a.q.conj).z⟩

/-- Modelled from the spec: `get_rotation_matrix()`, the standard
quaternion-to-matrix formula. -/
def Rotation.get_rotation_matrix (a : Rotation) : Mat3 :=
  ⟨1 - 2 * (a.q.y ^ 2 + a.q.z ^ 2),
   2 * (a.q.x * a.q.y - a.q.w * a.q.z),
   2 * (a.q.x * a.q.z + a.q.w * a.q.y),
   2 * (a.q.x * a.q.y + a.q.w * a.q.z),
   1 - 2 * (a.q.x ^ 2 + a.q.z ^ 2),
   2 * (a.q.y * a.q.z - a.q.w * a.q.x),
   2 * (a.q.x * a.q.z - a.q.w * a.q.y),
   2 * (a.q.y * a.q.z + a.q.w * a.q.x),
   1 - 2 * (a.q.x ^ 2 + a.q.y ^ 2)⟩

/-- Modelled from the spec: `get_rotation_vector()`, the inverse of the
rotation-vector constructor.  The quaternion sign is first canonicalized to
a non-negative scalar part, so the recovered angle lies in the principal
range; the zero rotation maps to the zero vector. -/
def Rotation.get_rotation_vector (a : Rotation) : Vec3 :=
  if Real.sqrt (a.q.x ^ 2 + a.q.y ^ 2 + a.q.z ^ 2) = 0 then Vec3.zero
  else if a.q.w < 0 then
    Vec3.smul (2 * Real.arccos (-a.q.w) / Real.sqrt (a.q.x ^ 2 + a.q.y ^ 2 + a.q.z ^ 2))
      ⟨-a.q.x, -a.q.y, -a.q.z⟩
  else
    Vec3.smul (2 * Real.arccos a.q.w / Real.sqrt (a.q.x ^ 2 + a.q.y ^ 2 + a.q.z ^ 2))
      ⟨a.q.x, a.q.y, a.q.z⟩

/-- Modelled from the spec: the quaternion of the minimal great-circle arc
taking the unit direction `g` to the unit direction `n`: its axis is the
normalized cross product of the two directions and its angle is the angle
between them (recovered by the arc cosine of their inner product). -/
def arc_rotation (g n : Vec3) : Quat :=
  ⟨Real.cos (Real.arccos (Vec3.dot g n) / 2),
   Real.sin (Real.arccos (Vec3.dot g n) / 2) / (Vec3.cross g n).norm *
     (Vec3.cross g n).x,
   Real.sin (Real.arccos (Vec3.dot g n) / 2) / (Vec3.cross g n).norm *
     (Vec3.cross g n).y,
   Real.sin (Real.arccos (Vec3.dot g n) / 2) / (Vec3.cross g n).norm *
     (Vec3.cross g n).z⟩

/-- Modelled from the spec: `smallest_rotation(lam, t)`.  The rotation taking
the first basis vector of the triad to the normalized target direction via
the minimal great-circle arc, pre-composed with the triad. -/
def smallest_rotation (lam : Rotation) (t : Vec3) : Rotation :=
  ⟨Quat.mul (arc_rotation (lam.act e1) (Vec3.smul (1 / t.norm) t)) lam.q⟩

/-- Modelled from the spec: the fixed threshold below which the
transformation matrix is evaluated by its Taylor-series limit (the spec
leaves the exact epsilon open; a fixed small value is chosen and
documented). -/
def transformationEps : ℝ := 1e-8

/-- Modelled from the spec: the transformation matrix `T(psi)` relating
additive and multiplicative variations of the rotation vector, written in
terms of the angle, the skew operator of `psi` and its square.  Near zero
the truncated Taylor series of the trigonometric coefficients is used
instead of dividing by a near-zero angle. -/
def transformation_matrix_of_vector (psi : Vec3) : Mat3 :=
  if psi.norm < transformationEps then
    (idMat3.add ((skew psi).smul (-(1 : ℝ) / 2))).add
      (((skew psi).mul (skew psi)).smul (1 / 6))
  else
    (idMat3.add ((skew psi).smul (-(1 - Real.cos psi.norm) / psi.norm ^ 2))).add
      (((skew psi).mul (skew psi)).smul ((psi.norm - Real.sin psi.norm) / psi.norm ^ 3))

/-- Modelled from the spec: `get_transformation_matrix()`, the
transformation matrix evaluated at the rotation vector of the rotation. -/
def Rotation.get_transformation_matrix (a : Rotation) : Mat3 :=
  transformation_matrix_of_vector a.get_rotation_vector

/-- Entrywise closeness of two 3 by 3 matrices. -/
def Mat3.close (m n : Mat3) (eps : ℝ) : Prop :=
  |m.a11 - n.a11| < eps ∧ |m.a12 - n.a12| < eps ∧ |m.a13 - n.a13| < eps ∧
  |m.a21 - n.a21| < eps ∧ |m.a22 - n.a22| < eps ∧ |m.a23 - n.a23| < eps ∧
  |m.a31 - n.a31| < eps ∧ |m.a32 - n.a32| < eps ∧ |m.a33 - n.a33| < eps

theorem Vec3.normSq_nonneg (v : Vec3) : 0 ≤ v.normSq := by
  unfold Vec3.normSq; positivity

theorem Vec3.sq_norm (v : Vec3) : v.norm ^ 2 = v.normSq :=
  Real.sq_sqrt v.normSq_nonneg

theorem Vec3.normSq_eq_zero_iff (v : Vec3) : v.normSq = 0 ↔ v = Vec3.zero := by
  constructor
  · intro h
    unfold Vec3.normSq at h
    have hx : v.x ^ 2 = 0 := by
      nlinarith [sq_nonneg v.x, sq_nonneg v.y, sq_nonneg v.z]
    have hy : v.y ^ 2 = 0 := by
      nlinarith [sq_nonneg v.x, sq_nonneg v.y, sq_nonneg v.z]
    have hz : v.z ^ 2 = 0 := by
      nlinarith [sq_nonneg v.x, sq_nonneg v.y, sq_nonneg v.z]
    rw [sq_eq_zero_iff] at hx hy hz
    cases v; simp_all [Vec3.zero]
  · intro h; subst h; simp [Vec3.zero, Vec3.normSq]

theorem Vec3.norm_eq_zero_iff (v : Vec3) : v.norm = 0 ↔ v = Vec3.zero := by
  rw [Vec3.norm, Real.sqrt_eq_zero v.normSq_nonneg, Vec3.normSq_eq_zero_iff]

theorem Vec3.norm_nonneg (v : Vec3) : 0 ≤ v.norm := Real.sqrt_nonneg _

theorem Vec3.norm_pos (v : Vec3) (h : v ≠ Vec3.zero) : 0 < v.norm := by
  rcases lt_or_eq_of_le v.norm_nonneg with h' | h'
  · exact h'
  · exact absurd ((Vec3.norm_eq_zero_iff v).mp h'.symm) h

theorem quat_normSq_nonneg (q : Quat) : 0 ≤ q.normSq := by
  unfold Quat.normSq; positivity

theorem quat_sq_norm (q : Quat) : q.norm ^ 2 = q.normSq :=
  Real.sq_sqrt (quat_normSq_nonneg q)

theorem quat_normSq_eq_zero_iff (q : Quat) : q.normSq = 0 ↔ q = ⟨0, 0, 0, 0⟩ := by
  constructor
  · intro h
    unfold Quat.normSq at h
    have hw : q.w ^ 2 = 0 := by
      nlinarith [sq_nonneg q.w, sq_nonneg q.x, sq_nonneg q.y, sq_nonneg q.z]
    have hx : q.x ^ 2 = 0 := by
      nlinarith [sq_nonneg q.w, sq_nonneg q.x, sq_nonneg q.y, sq_nonneg q.z]
    have hy : q.y ^ 2 = 0 := by
      nlinarith [sq_nonneg q.w, sq_nonneg q.x, sq_nonneg q.y, sq_nonneg q.z]
    have hz : q.z ^ 2 = 0 := by
      nlinarith [sq_nonneg q.w, sq_nonneg q.x, sq_nonneg q.y, sq_nonneg q.z]
    rw [sq_eq_zero_iff] at hw hx hy hz
    cases q; simp_all
  · intro h; subst h; simp [Quat.normSq]

theorem quat_norm_eq_zero_iff (q : Quat) : q.norm = 0 ↔ q = ⟨0, 0, 0, 0⟩ := by
  rw [Quat.norm, Real.sqrt_eq_zero (quat_normSq_nonneg q), quat_normSq_eq_zero_iff]

theorem Quat.normSq_mul (p q : Quat) : (p.mul q).normSq = p.normSq * q.normSq := by
  simp only [Quat.mul, Quat.normSq]; ring

/-- Claim C3: the axis-angle constructor raises `InvalidArgument` exactly when
the axis is the zero vector and the angle is non-zero; for a zero angle the
construction succeeds for every axis, including the zero axis, and yields the
identity rotation. -/
theorem c3_axis_angle_error_iff (axis : Vec3) (angle : ℝ) :
    (Rotation.fromAxisAngle axis angle = .error .invalidArgument ↔
      axis = Vec3.zero ∧ angle ≠ 0) ∧
    (angle = 0 → Rotation.fromAxisAngle axis angle = .ok Rotation.identity) := by
  constructor
  · unfold Rotation.fromAxisAngle
    split_ifs with h1 h2
    · simp [h1]
    · simp [h1, h2]
    · simp [h1, h2]
  · intro h
    unfold Rotation.fromAxisAngle
    rw [if_pos h]

/-- Witness for claim C3 at the zero axis and zero angle. -/
theorem c3_axis_angle_error_iff_witness :
    Rotation.fromAxisAngle Vec3.zero 0 = .ok Rotation.identity :=
  (c3_axis_angle_error_iff Vec3.zero 0).2 rfl

/-- Claim C4: `from_quaternion` raises `InvalidArgument` exactly when the
input 4-vector has zero norm (equivalently, is the zero quaternion); every
non-zero input succeeds, and the stored quaternion is the input divided by
its norm. -/
theorem c4_from_quaternion_normalizes (q : Quat) :
    (Rotation.from_quaternion q = .error .invalidArgument ↔ q.norm = 0) ∧
    (q.norm = 0 ↔ q = ⟨0, 0, 0, 0⟩) ∧
    (q.norm ≠ 0 →
      Rotation.from_quaternion q = .ok ⟨Quat.smul (1 / q.norm) q⟩) := by
  refine ⟨?_, quat_norm_eq_zero_iff q, ?_⟩
  · unfold Rotation.from_quaternion
    split_ifs with h
    · simp [h]
    · simp [h]
  · intro h
    unfold Rotation.from_quaternion
    rw [if_neg h]

/-- Witness for claim C4 at the quaternion `(2, 0, 0, 0)`. -/
theorem c4_from_quaternion_normalizes_witness :
    Rotation.from_quaternion ⟨2, 0, 0, 0⟩ =
      .ok ⟨Quat.smul (1 / Quat.norm ⟨2, 0, 0, 0⟩) ⟨2, 0, 0, 0⟩⟩ := by
  refine (c4_from_quaternion_normalizes ⟨2, 0, 0, 0⟩).2.2 ?_
  rw [(quat_norm_eq_zero_iff _).ne]
  simp

theorem fromAxisAngle_x_axis (angle : ℝ) (h : angle ≠ 0) :
    Rotation.fromAxisAngle ⟨1, 0, 0⟩ angle =
      .ok ⟨⟨Real.cos (angle / 2), Real.sin (angle / 2), 0, 0⟩⟩ := by
  unfold Rotation.fromAxisAngle
  rw [if_neg h, if_neg (by simp [Vec3.zero])]
  have hn : Vec3.norm ⟨1, 0, 0⟩ = 1 := by
    simp [Vec3.norm, Vec3.normSq]
  rw [hn]; simp

theorem fromAxisAngle_y_axis (angle : ℝ) (h : angle ≠ 0) :
    Rotation.fromAxisAngle ⟨0, 1, 0⟩ angle =
      .ok ⟨⟨Real.cos (angle / 2), 0, Real.sin (angle / 2), 0⟩⟩ := by
  unfold Rotation.fromAxisAngle
  rw [if_neg h, if_neg (by simp [Vec3.zero])]
  have hn : Vec3.norm ⟨0, 1, 0⟩ = 1 := by
    simp [Vec3.norm, Vec3.normSq]
  rw [hn]; simp

/-- Claim C1: constructing a rotation about the axis `(1,0,0)` with angle
`pi / 3` and taking the rotation matrix yields
`[[1,0,0],[0,cos(pi/3),-sin(pi/3)],[0,sin(pi/3),cos(pi/3)]]`, every entry
within absolute tolerance `1e-10`. -/
theorem c1_x_axis_pi_third_matrix :
    ∃ r : Rotation, Rotation.fromAxisAngle ⟨1, 0, 0⟩ (π / 3) = .ok r ∧
      Mat3.close r.get_rotation_matrix
        ⟨1, 0, 0,
         0, Real.cos (π / 3), -Real.sin (π / 3),
         0, Real.sin (π / 3), Real.cos (π / 3)⟩ (1e-10 : ℝ) := by
  have hne : π / 3 ≠ 0 := by positivity
  refine ⟨_, fromAxisAngle_x_axis (π / 3) hne, ?_⟩
  have harg : π / 3 / 2 = π / 6 := by ring
  unfold Mat3.close Rotation.get_rotation_matrix
  rw [harg]
  simp only [Real.cos_pi_div_six, Real.sin_pi_div_six, Real.cos_pi_div_three,
    Real.sin_pi_div_three]
  have h3 : Real.sqrt 3 ^ 2 = 3 := Real.sq_sqrt (by norm_num)
  refine ⟨?_, ?_, ?_, ?_, ?_, ?_, ?_, ?_, ?_⟩ <;>
    · rw [abs_sub_lt_iff]; constructor <;> nlinarith [h3]

/-- Claim C6: for the concrete pair of rotations about the x-axis and the
y-axis, each by an angle of `pi / 2`, the two compositions differ under the
equality operator of the class. -/
theorem c6_composition_noncommutative :
    ∀ a b : Rotation,
      Rotation.fromAxisAngle ⟨1, 0, 0⟩ (π / 2) = .ok a →
      Rotation.fromAxisAngle ⟨0, 1, 0⟩ (π / 2) = .ok b →
      ¬ Rotation.eqRot (a.compose b) (b.compose a) := by
  intro a b ha hb
  have hne : π / 2 ≠ 0 := by positivity
  rw [fromAxisAngle_x_axis (π / 2) hne] at ha
  rw [fromAxisAngle_y_axis (π / 2) hne] at hb
  have harg : π / 2 / 2 = π / 4 := by ring
  rw [harg, Real.cos_pi_div_four, Real.sin_pi_div_four] at ha hb
  have ha' : a = ⟨⟨Real.sqrt 2 / 2, Real.sqrt 2 / 2, 0, 0⟩⟩ := by
    injection ha with h; exact h.symm
  have hb' : b = ⟨⟨Real.sqrt 2 / 2, 0, Real.sqrt 2 / 2, 0⟩⟩ := by
    injection hb with h; exact h.symm
  subst ha' hb'
  have h2 : Real.sqrt 2 ^ 2 = 2 := Real.sq_sqrt (by norm_num)
  unfold Rotation.eqRot Rotation.compose Quat.mul Quat.neg
  simp only [Quat.mk.injEq, Rotation.mk.injEq, not_or]
  constructor
  · intro h
    obtain ⟨-, -, -, h4⟩ := h
    nlinarith [h2]
  · intro h
    obtain ⟨h1, -, -, -⟩ := h
    nlinarith [h2]

/-- Witness for claim C6 at the two concrete axis-angle constructions. -/
theorem c6_composition_noncommutative_witness :
    ∃ a b : Rotation,
      Rotation.fromAxisAngle ⟨1, 0, 0⟩ (π / 2) = .ok a ∧
      Rotation.fromAxisAngle ⟨0, 1, 0⟩ (π / 2) = .ok b ∧
      ¬ Rotation.eqRot (a.compose b) (b.compose a) := by
  have hne : π / 2 ≠ 0 := by positivity
  refine ⟨_, _, fromAxisAngle_x_axis (π / 2) hne, fromAxisAngle_y_axis (π / 2) hne, ?_⟩
  exact c6_composition_noncommutative _ _ (fromAxisAngle_x_axis (π / 2) hne)
    (fromAxisAngle_y_axis (π / 2) hne)

/-- Claim C5: for unit rotations, composing a rotation with its inverse
yields the identity, composing with a rotation and then with that rotation
inverted returns the original rotation, and the inverse is the quaternion
conjugate (negated vector part). -/
theorem c5_inversion_round_trip (a b : Rotation)
    (ha : a.q.normSq = 1) (hb : b.q.normSq = 1) :
    Rotation.eqRot (a.compose a.inv) Rotation.identity ∧
    Rotation.eqRot ((a.compose b).compose b.inv) a ∧
    a.inv.q = ⟨a.q.w, -a.q.x, -a.q.y, -a.q.z⟩ := by
  obtain ⟨⟨aw, ax, ay, az⟩⟩ := a
  obtain ⟨⟨bw, bx, bz, bu⟩⟩ := b
  unfold Quat.normSq at ha hb
  dsimp only at ha hb
  refine ⟨Or.inl ?_, Or.inl ?_, rfl⟩
  · unfold Rotation.compose Rotation.inv Rotation.identity Quat.mul Quat.conj
    simp only [Rotation.mk.injEq, Quat.mk.injEq]
    refine ⟨by linear_combination ha, by ring, by ring, by ring⟩
  · unfold Rotation.compose Rotation.inv Quat.mul Quat.conj
    simp only [Rotation.mk.injEq, Quat.mk.injEq]
    refine ⟨by linear_combination aw * hb, by linear_combination ax * hb,
      by linear_combination ay * hb, by linear_combination az * hb⟩

/-- Witness for claim C5 at two concrete unit rotations. -/
theorem c5_inversion_round_trip_witness :
    Quat.normSq ⟨3 / 5, 4 / 5, 0, 0⟩ = 1 ∧
    Quat.normSq ⟨5 / 13, 0, 12 / 13, 0⟩ = 1 ∧
    (Rotation.eqRot
        (Rotation.compose ⟨⟨3 / 5, 4 / 5, 0, 0⟩⟩ (Rotation.inv ⟨⟨3 / 5, 4 / 5, 0, 0⟩⟩))
        Rotation.identity ∧
      Rotation.eqRot
        (Rotation.compose
          (Rotation.compose ⟨⟨3 / 5, 4 / 5, 0, 0⟩⟩ ⟨⟨5 / 13, 0, 12 / 13, 0⟩⟩)
          (Rotation.inv ⟨⟨5 / 13, 0, 12 / 13, 0⟩⟩))
        ⟨⟨3 / 5, 4 / 5, 0, 0⟩⟩ ∧
      (Rotation.inv ⟨⟨3 / 5, 4 / 5, 0, 0⟩⟩).q = ⟨3 / 5, -(4 / 5), -0, -0⟩) := by
  refine ⟨by norm_num [Quat.normSq], by norm_num [Quat.normSq], ?_⟩
  exact c5_inversion_round_trip ⟨⟨3 / 5, 4 / 5, 0, 0⟩⟩ ⟨⟨5 / 13, 0, 12 / 13, 0⟩⟩
    (by norm_num [Quat.normSq]) (by norm_num [Quat.normSq])

/-- Claim C7: for every unit rotation and every 3-vector, the vector action
computed by the quaternion sandwich product agrees with multiplication by
the rotation matrix. -/
theorem c7_action_matches_matrix (a : Rotation) (r : Vec3)
    (ha : a.q.normSq = 1) :
    a.act r = a.get_rotation_matrix.mulVec r := by
  unfold Quat.normSq at ha
  unfold Rotation.act Rotation.get_rotation_matrix Mat3.mulVec Quat.mul Quat.conj
  simp only [Vec3.mk.injEq]
  refine ⟨by linear_combination r.x * ha, by linear_combination r.y * ha,
    by linear_combination r.z * ha⟩

/-- Witness for claim C7 at a concrete unit rotation and vector. -/
theorem c7_action_matches_matrix_witness :
    Rotation.act ⟨⟨3 / 5, 0, 0, 4 / 5⟩⟩ ⟨1, 2, 3⟩ =
      (Rotation.get_rotation_matrix ⟨⟨3 / 5, 0, 0, 4 / 5⟩⟩).mulVec ⟨1, 2, 3⟩ :=
  c7_action_matches_matrix ⟨⟨3 / 5, 0, 0, 4 / 5⟩⟩ ⟨1, 2, 3⟩ (by norm_num [Quat.normSq])

theorem cos_int_mul_pi_eq_one_or (k : ℤ) :
    Real.cos (k * π) = 1 ∨ Real.cos (k * π) = -1 := by
  have hs := Real.sin_sq_add_cos_sq (k * π)
  rw [Real.sin_int_mul_pi] at hs
  have h : (Real.cos (k * π) - 1) * (Real.cos (k * π) + 1) = 0 := by
    linear_combination hs
  rcases mul_eq_zero.mp h with h | h
  · exact Or.inl (by linarith)
  · exact Or.inr (by linarith)

theorem from_rotation_matrix_id :
    Rotation.from_rotation_matrix idMat3 = Rotation.identity := by
  unfold Rotation.from_rotation_matrix idMat3
  rw [if_pos (by norm_num)]
  have h4 : Real.sqrt (1 + 1 + 1 + 1) = 2 := by
    rw [show (1 : ℝ) + 1 + 1 + 1 = 2 ^ 2 by norm_num,
      Real.sqrt_sq (by norm_num : (0 : ℝ) ≤ 2)]
  simp only [h4]
  unfold Rotation.identity
  norm_num

/-- Claim C2: every axis-angle input with a full-turn angle, every rotation
vector of full-turn magnitude, every non-zero quaternion with vanishing
vector part, the identity rotation matrix, and the no-argument constructor
all produce rotations that are equal, under the equality operator of the
class, to the identity rotation produced by the no-argument constructor. -/
theorem c2_identity_constructions (k : ℤ) (axis psi : Vec3) (c : ℝ)
    (haxis : axis ≠ Vec3.zero) (hpsi : psi.norm = 2 * π * k) (hc : c ≠ 0) :
    (∃ r : Rotation, Rotation.fromAxisAngle axis (2 * π * k) = .ok r ∧
      Rotation.eqRot r Rotation.identity) ∧
    Rotation.eqRot (Rotation.from_rotation_vector psi) Rotation.identity ∧
    (∃ r : Rotation, Rotation.from_quaternion ⟨c, 0, 0, 0⟩ = .ok r ∧
      Rotation.eqRot r Rotation.identity) ∧
    Rotation.eqRot (Rotation.from_rotation_matrix idMat3) Rotation.identity := by
  have harg : 2 * π * (k : ℝ) / 2 = k * π := by ring
  have hsin : Real.sin (2 * π * (k : ℝ) / 2) = 0 := by
    rw [harg, Real.sin_int_mul_pi]
  refine ⟨?_, ?_, ?_, ?_⟩
  · by_cases hk : (2 : ℝ) * π * k = 0
    · refine ⟨Rotation.identity, ?_, Or.inl rfl⟩
      unfold Rotation.fromAxisAngle
      rw [if_pos hk]
    · have hok : Rotation.fromAxisAngle axis (2 * π * k) =
          .ok ⟨⟨Real.cos (2 * π * k / 2),
                Real.sin (2 * π * k / 2) * axis.x / axis.norm,
                Real.sin (2 * π * k / 2) * axis.y / axis.norm,
                Real.sin (2 * π * k / 2) * axis.z / axis.norm⟩⟩ := by
        unfold Rotation.fromAxisAngle
        rw [if_neg hk, if_neg haxis]
      refine ⟨_, hok, ?_⟩
      rw [hsin, harg]
      rcases cos_int_mul_pi_eq_one_or k with h | h <;> rw [h]
      · exact Or.inl (by unfold Rotation.identity; norm_num)
      · exact Or.inr (by unfold Rotation.identity Quat.neg; norm_num)
  · by_cases hz : psi = Vec3.zero
    · unfold Rotation.from_rotation_vector
      rw [if_pos hz]
      exact Or.inl rfl
    · unfold Rotation.from_rotation_vector
      rw [if_neg hz, hpsi, hsin, harg]
      rcases cos_int_mul_pi_eq_one_or k with h | h <;> rw [h]
      · exact Or.inl (by unfold Rotation.identity; norm_num)
      · exact Or.inr (by unfold Rotation.identity Quat.neg; norm_num)
  · have hq : Quat.norm ⟨c, 0, 0, 0⟩ = |c| := by
      unfold Quat.norm Quat.normSq
      simp [Real.sqrt_sq_eq_abs]
    have hok : Rotation.from_quaternion ⟨c, 0, 0, 0⟩ =
        .ok ⟨Quat.smul (1 / Quat.norm ⟨c, 0, 0, 0⟩) ⟨c, 0, 0, 0⟩⟩ := by
      unfold Rotation.from_quaternion
      rw [if_neg (by rw [hq]; exact abs_ne_zero.mpr hc)]
    refine ⟨_, hok, ?_⟩
    rw [hq]
    rcases lt_or_gt_of_ne hc with h | h
    · refine Or.inr ?_
      unfold Rotation.identity Quat.neg Quat.smul
      rw [abs_of_neg h]
      simp only [Rotation.mk.injEq, Quat.mk.injEq]
      refine ⟨by field_simp, by ring, by ring, by ring⟩
    · refine Or.inl ?_
      unfold Rotation.identity Quat.smul
      rw [abs_of_pos h]
      simp only [Rotation.mk.injEq, Quat.mk.injEq]
      refine ⟨by field_simp, by ring, by ring, by ring⟩
  · rw [from_rotation_matrix_id]
    exact Or.inl rfl

/-- Witness for claim C2 at the concrete identity-representing inputs of the
notebook, together with a full-turn rotation vector. -/
theorem c2_identity_constructions_witness :
    (∃ r : Rotation, Rotation.fromAxisAngle ⟨1, 1, 1⟩ (2 * π * ((1 : ℤ) : ℝ)) = .ok r ∧
      Rotation.eqRot r Rotation.identity) ∧
    Rotation.eqRot (Rotation.from_rotation_vector ⟨2 * π, 0, 0⟩) Rotation.identity ∧
    (∃ r : Rotation, Rotation.from_quaternion ⟨1, 0, 0, 0⟩ = .ok r ∧
      Rotation.eqRot r Rotation.identity) ∧
    Rotation.eqRot (Rotation.from_rotation_matrix idMat3) Rotation.identity := by
  have hpi : (0 : ℝ) < π := Real.pi_pos
  refine c2_identity_constructions 1 ⟨1, 1, 1⟩ ⟨2 * π, 0, 0⟩ 1 ?_ ?_ one_ne_zero
  · intro h
    have := congrArg Vec3.x h
    simp [Vec3.zero] at this
  · unfold Vec3.norm Vec3.normSq
    push_cast
    rw [show (2 * π) ^ 2 + 0 ^ 2 + 0 ^ 2 = (2 * π) ^ 2 by ring,
      Real.sqrt_sq (by positivity)]
    ring

theorem abs_x_le_norm (v : Vec3) : |v.x| ≤ v.norm := by
  rw [← Real.sqrt_sq_eq_abs]
  exact Real.sqrt_le_sqrt (by unfold Vec3.normSq; nlinarith [sq_nonneg v.y, sq_nonneg v.z])

theorem abs_y_le_norm (v : Vec3) : |v.y| ≤ v.norm := by
  rw [← Real.sqrt_sq_eq_abs]
  exact Real.sqrt_le_sqrt (by unfold Vec3.normSq; nlinarith [sq_nonneg v.x, sq_nonneg v.z])

theorem abs_z_le_norm (v : Vec3) : |v.z| ≤ v.norm := by
  rw [← Real.sqrt_sq_eq_abs]
  exact Real.sqrt_le_sqrt (by unfold Vec3.normSq; nlinarith [sq_nonneg v.x, sq_nonneg v.y])

theorem offdiagBound (a u v w d eps : ℝ) (ha : a = u / 2 + v * w / 6)
    (hu : |u| < d) (hv : |v| < d) (hw : |w| < d)
    (h1 : d ≤ 1) (he : d ≤ eps) (h0 : 0 < d) : |a| < eps := by
  have habs : |a| ≤ |u| / 2 + |v| * |w| / 6 := by
    rw [ha]
    calc |u / 2 + v * w / 6| ≤ |u / 2| + |v * w / 6| := abs_add _ _
    _ = |u| / 2 + |v| * |w| / 6 := by
        rw [abs_div, abs_div, abs_mul]; norm_num
  have hvw : |v| * |w| < d * d :=
    mul_lt_mul'' hv hw (abs_nonneg v) (abs_nonneg w)
  have hdd : d * d ≤ d := by nlinarith
  linarith

theorem diagBound (a v w d eps : ℝ) (ha : a = (-(v * v) - w * w) / 6)
    (hv : |v| < d) (hw : |w| < d)
    (h1 : d ≤ 1) (he : d ≤ eps) (h0 : 0 < d) : |a| < eps := by
  have hv2 : v * v < d * d := by
    rw [← abs_mul_abs_self v]
    exact mul_lt_mul'' hv hv (abs_nonneg v) (abs_nonneg v)
  have hw2 : w * w < d * d := by
    rw [← abs_mul_abs_self w]
    exact mul_lt_mul'' hw hw (abs_nonneg w) (abs_nonneg w)
  have hvv : 0 ≤ v * v := mul_self_nonneg v
  have hww : 0 ≤ w * w := mul_self_nonneg w
  have habs : |a| = (v * v + w * w) / 6 := by
    rw [ha, abs_div, abs_of_nonpos (by linarith : -(v * v) - w * w ≤ 0)]
    norm_num; ring
  have hdd : d * d ≤ d := by nlinarith
  rw [habs]
  linarith

theorem get_rotation_vector_identity :
    Rotation.identity.get_rotation_vector = Vec3.zero := by
  unfold Rotation.get_rotation_vector Rotation.identity
  rw [if_pos (by norm_num [Real.sqrt_zero])]

theorem transformation_matrix_zero :
    transformation_matrix_of_vector Vec3.zero = idMat3 := by
  unfold transformation_matrix_of_vector
  rw [if_pos ?_]
  · unfold Mat3.add Mat3.smul Mat3.mul skew idMat3 Vec3.zero
    norm_num
  · unfold Vec3.norm Vec3.normSq Vec3.zero transformationEps
    norm_num

/-- Claim C9: the transformation matrix at the zero rotation vector is the
identity matrix with no singularity, the method applied to the identity
rotation returns the identity matrix, and for small non-zero rotation
vectors the result converges entrywise to the identity matrix (the model
uses the Taylor-series branch below a fixed threshold instead of dividing by
a near-zero angle). -/
theorem c9_transformation_matrix_regular_at_zero :
    Rotation.identity.get_transformation_matrix = idMat3 ∧
    transformation_matrix_of_vector Vec3.zero = idMat3 ∧
    ∀ eps : ℝ, 0 < eps → ∃ d : ℝ, 0 < d ∧ ∀ psi : Vec3, psi ≠ Vec3.zero →
      psi.norm < d → Mat3.close (transformation_matrix_of_vector psi) idMat3 eps := by
  refine ⟨?_, transformation_matrix_zero, ?_⟩
  · unfold Rotation.get_transformation_matrix
    rw [get_rotation_vector_identity]
    exact transformation_matrix_zero
  intro eps heps
  have hteps : (0 : ℝ) < transformationEps := by norm_num [transformationEps]
  refine ⟨min transformationEps (min 1 eps), lt_min hteps (lt_min one_pos heps), ?_⟩
  intro psi hne hlt
  have hde : min transformationEps (min 1 eps) ≤ transformationEps := min_le_left _ _
  have hd1 : min transformationEps (min 1 eps) ≤ 1 :=
    le_trans (min_le_right _ _) (min_le_left _ _)
  have hdeps : min transformationEps (min 1 eps) ≤ eps :=
    le_trans (min_le_right _ _) (min_le_right _ _)
  have hd0 : 0 < min transformationEps (min 1 eps) :=
    lt_min hteps (lt_min one_pos heps)
  have hx : |psi.x| < min transformationEps (min 1 eps) :=
    lt_of_le_of_lt (abs_x_le_norm psi) hlt
  have hy : |psi.y| < min transformationEps (min 1 eps) :=
    lt_of_le_of_lt (abs_y_le_norm psi) hlt
  have hz : |psi.z| < min transformationEps (min 1 eps) :=
    lt_of_le_of_lt (abs_z_le_norm psi) hlt
  have hxn : |-psi.x| < min transformationEps (min 1 eps) := by rwa [abs_neg]
  have hyn : |-psi.y| < min transformationEps (min 1 eps) := by rwa [abs_neg]
  have hzn : |-psi.z| < min transformationEps (min 1 eps) := by rwa [abs_neg]
  unfold transformation_matrix_of_vector
  rw [if_pos (lt_of_lt_of_le hlt hde)]
  unfold Mat3.close Mat3.add Mat3.smul Mat3.mul skew idMat3
  refine ⟨diagBound _ psi.z psi.y _ eps (by ring) hz hy hd1 hdeps hd0,
    offdiagBound _ psi.z psi.y psi.x _ eps (by ring) hz hy hx hd1 hdeps hd0,
    offdiagBound _ (-psi.y) psi.z psi.x _ eps (by ring) hyn hz hx hd1 hdeps hd0,
    offdiagBound _ (-psi.z) psi.x psi.y _ eps (by ring) hzn hx hy hd1 hdeps hd0,
    diagBound _ psi.z psi.x _ eps (by ring) hz hx hd1 hdeps hd0,
    offdiagBound _ psi.x psi.z psi.y _ eps (by ring) hx hz hy hd1 hdeps hd0,
    offdiagBound _ psi.y psi.x psi.z _ eps (by ring) hy hx hz hd1 hdeps hd0,
    offdiagBound _ (-psi.x) psi.y psi.z _ eps (by ring) hxn hy hz hd1 hdeps hd0,
    diagBound _ psi.y psi.x _ eps (by ring) hy hx hd1 hdeps hd0⟩

/-- Witness for claim C9 at the tolerance one. -/
theorem c9_transformation_matrix_regular_at_zero_witness :
    Rotation.identity.get_transformation_matrix = idMat3 ∧
    ∃ d : ℝ, 0 < d ∧ ∀ psi : Vec3, psi ≠ Vec3.zero →
      psi.norm < d → Mat3.close (transformation_matrix_of_vector psi) idMat3 1 :=
  ⟨c9_transformation_matrix_regular_at_zero.1,
   c9_transformation_matrix_regular_at_zero.2.2 1 one_pos⟩

theorem shepperd_branch_w (u w x y z : ℝ) (hu0 : u ≠ 0) (hu2 : u ^ 2 = 4 * w ^ 2)
    (hp : w ^ 2 + x ^ 2 + y ^ 2 + z ^ 2 = 1) :
    (2 * u / 4) ^ 2 + ((2 * (y * z + w * x) - 2 * (y * z - w * x)) / (2 * u)) ^ 2 +
      ((2 * (x * z + w * y) - 2 * (x * z - w * y)) / (2 * u)) ^ 2 +
      ((2 * (x * y + w * z) - 2 * (x * y - w * z)) / (2 * u)) ^ 2 = 1 := by
  have hw : w ^ 2 ≠ 0 := by
    intro h; rw [h] at hu2; simp at hu2; exact hu0 hu2
  have key : u ^ 2 / 4 + 4 * (x ^ 2 + y ^ 2 + z ^ 2) * w ^ 2 / u ^ 2 = 1 := by
    rw [hu2]
    field_simp
    linear_combination 4 * w ^ 2 * hp
  calc (2 * u / 4) ^ 2 + ((2 * (y * z + w * x) - 2 * (y * z - w * x)) / (2 * u)) ^ 2 +
      ((2 * (x * z + w * y) - 2 * (x * z - w * y)) / (2 * u)) ^ 2 +
      ((2 * (x * y + w * z) - 2 * (x * y - w * z)) / (2 * u)) ^ 2
      = u ^ 2 / 4 + 4 * (x ^ 2 + y ^ 2 + z ^ 2) * w ^ 2 / u ^ 2 := by
        field_simp; ring
  _ = 1 := key

theorem shepperd_branch_x (u w x y z : ℝ) (hu0 : u ≠ 0) (hu2 : u ^ 2 = 4 * x ^ 2)
    (hp : w ^ 2 + x ^ 2 + y ^ 2 + z ^ 2 = 1) :
    ((2 * (y * z + w * x) - 2 * (y * z - w * x)) / (2 * u)) ^ 2 + (2 * u / 4) ^ 2 +
      ((2 * (x * y - w * z) + 2 * (x * y + w * z)) / (2 * u)) ^ 2 +
      ((2 * (x * z + w * y) + 2 * (x * z - w * y)) / (2 * u)) ^ 2 = 1 := by
  have hw : x ^ 2 ≠ 0 := by
    intro h; rw [h] at hu2; simp at hu2; exact hu0 hu2
  have key : u ^ 2 / 4 + 4 * (w ^ 2 + y ^ 2 + z ^ 2) * x ^ 2 / u ^ 2 = 1 := by
    rw [hu2]
    field_simp
    linear_combination 4 * x ^ 2 * hp
  calc ((2 * (y * z + w * x) - 2 * (y * z - w * x)) / (2 * u)) ^ 2 + (2 * u / 4) ^ 2 +
      ((2 * (x * y - w * z) + 2 * (x * y + w * z)) / (2 * u)) ^ 2 +
      ((2 * (x * z + w * y) + 2 * (x * z - w * y)) / (2 * u)) ^ 2
      = u ^ 2 / 4 + 4 * (w ^ 2 + y ^ 2 + z ^ 2) * x ^ 2 / u ^ 2 := by
        field_simp; ring
  _ = 1 := key

theorem shepperd_branch_y (u w x y z : ℝ) (hu0 : u ≠ 0) (hu2 : u ^ 2 = 4 * y ^ 2)
    (hp : w ^ 2 + x ^ 2 + y ^ 2 + z ^ 2 = 1) :
    ((2 * (x * z + w * y) - 2 * (x * z - w * y)) / (2 * u)) ^ 2 +
      ((2 * (x * y - w * z) + 2 * (x * y + w * z)) / (2 * u)) ^ 2 + (2 * u / 4) ^ 2 +
      ((2 * (y * z - w * x) + 2 * (y * z + w * x)) / (2 * u)) ^ 2 = 1 := by
  have hw : y ^ 2 ≠ 0 := by
    intro h; rw [h] at hu2; simp at hu2; exact hu0 hu2
  have key : u ^ 2 / 4 + 4 * (w ^ 2 + x ^ 2 + z ^ 2) * y ^ 2 / u ^ 2 = 1 := by
    rw [hu2]
    field_simp
    linear_combination 4 * y ^ 2 * hp
  calc ((2 * (x * z + w * y) - 2 * (x * z - w * y)) / (2 * u)) ^ 2 +
      ((2 * (x * y - w * z) + 2 * (x * y + w * z)) / (2 * u)) ^ 2 + (2 * u / 4) ^ 2 +
      ((2 * (y * z - w * x) + 2 * (y * z + w * x)) / (2 * u)) ^ 2
      = u ^ 2 / 4 + 4 * (w ^ 2 + x ^ 2 + z ^ 2) * y ^ 2 / u ^ 2 := by
        field_simp; ring
  _ = 1 := key

theorem shepperd_branch_z (u w x y z : ℝ) (hu0 : u ≠ 0) (hu2 : u ^ 2 = 4 * z ^ 2)
    (hp : w ^ 2 + x ^ 2 + y ^ 2 + z ^ 2 = 1) :
    ((2 * (x * y + w * z) - 2 * (x * y - w * z)) / (2 * u)) ^ 2 +
      ((2 * (x * z + w * y) + 2 * (x * z - w * y)) / (2 * u)) ^ 2 +
      ((2 * (y * z - w * x) + 2 * (y * z + w * x)) / (2 * u)) ^ 2 + (2 * u / 4) ^ 2 = 1 := by
  have hw : z ^ 2 ≠ 0 := by
    intro h; rw [h] at hu2; simp at hu2; exact hu0 hu2
  have key : u ^ 2 / 4 + 4 * (w ^ 2 + x ^ 2 + y ^ 2) * z ^ 2 / u ^ 2 = 1 := by
    rw [hu2]
    field_simp
    linear_combination 4 * z ^ 2 * hp
  calc ((2 * (x * y + w * z) - 2 * (x * y - w * z)) / (2 * u)) ^ 2 +
      ((2 * (x * z + w * y) + 2 * (x * z - w * y)) / (2 * u)) ^ 2 +
      ((2 * (y * z - w * x) + 2 * (y * z + w * x)) / (2 * u)) ^ 2 + (2 * u / 4) ^ 2
      = u ^ 2 / 4 + 4 * (w ^ 2 + x ^ 2 + y ^ 2) * z ^ 2 / u ^ 2 := by
        field_simp; ring
  _ = 1 := key

theorem normSq_from_rotation_matrix (p : Quat) (hp : p.normSq = 1) :
    (Rotation.from_rotation_matrix (Rotation.get_rotation_matrix ⟨p⟩)).q.normSq = 1 := by
  obtain ⟨w, x, y, z⟩ := p
  unfold Quat.normSq at hp
  dsimp only at hp
  unfold Rotation.from_rotation_matrix Rotation.get_rotation_matrix
  dsimp only
  split_ifs with h1 h2 h3
  · -- positive trace branch
    have htr : 1 - 2 * (y ^ 2 + z ^ 2) + (1 - 2 * (x ^ 2 + z ^ 2)) +
        (1 - 2 * (x ^ 2 + y ^ 2)) + 1 = (2 * w) ^ 2 := by linear_combination -4 * hp
    rw [htr, Real.sqrt_sq_eq_abs]
    have hw0 : w ≠ 0 := by
      intro h0
      rw [h0] at hp
      nlinarith [hp, h1]
    have habs0 : |2 * w| ≠ 0 := abs_ne_zero.mpr (mul_ne_zero two_ne_zero hw0)
    have habs2 : |2 * w| ^ 2 = 4 * w ^ 2 := by rw [sq_abs]; ring
    unfold Quat.normSq
    dsimp only
    exact shepperd_branch_w (|2 * w|) w x y z habs0 habs2 hp
  · -- first diagonal branch
    have htr : 1 + (1 - 2 * (y ^ 2 + z ^ 2)) - (1 - 2 * (x ^ 2 + z ^ 2)) -
        (1 - 2 * (x ^ 2 + y ^ 2)) = (2 * x) ^ 2 := by ring
    rw [htr, Real.sqrt_sq_eq_abs]
    have hx0 : x ≠ 0 := by
      intro h0
      have hx2 : x ^ 2 = 0 := by rw [h0]; ring
      have h1' := not_lt.mp h1
      nlinarith [h2.1, h2.2, hp, hx2, sq_nonneg y, sq_nonneg z, h1']
    have habs0 : |2 * x| ≠ 0 := abs_ne_zero.mpr (mul_ne_zero two_ne_zero hx0)
    have habs2 : |2 * x| ^ 2 = 4 * x ^ 2 := by rw [sq_abs]; ring
    unfold Quat.normSq
    dsimp only
    exact shepperd_branch_x (|2 * x|) w x y z habs0 habs2 hp
  · -- second diagonal branch
    have htr : 1 + (1 - 2 * (x ^ 2 + z ^ 2)) - (1 - 2 * (y ^ 2 + z ^ 2)) -
        (1 - 2 * (x ^ 2 + y ^ 2)) = (2 * y) ^ 2 := by ring
    rw [htr, Real.sqrt_sq_eq_abs]
    have hy0 : y ≠ 0 := by
      intro h0
      have hy2 : y ^ 2 = 0 := by rw [h0]; ring
      have hz2 : z ^ 2 = 0 := by nlinarith [h3, hy2, sq_nonneg z]
      have hA : 1 - 2 * (x ^ 2 + z ^ 2) ≤ 1 - 2 * (y ^ 2 + z ^ 2) := by
        nlinarith [hy2, sq_nonneg x]
      have hB : ¬ (1 - 2 * (x ^ 2 + y ^ 2) ≤ 1 - 2 * (y ^ 2 + z ^ 2)) :=
        fun hb => h2 ⟨hA, hb⟩
      have hB' := not_le.mp hB
      nlinarith [hB', hy2, hz2, sq_nonneg x]
    have habs0 : |2 * y| ≠ 0 := abs_ne_zero.mpr (mul_ne_zero two_ne_zero hy0)
    have habs2 : |2 * y| ^ 2 = 4 * y ^ 2 := by rw [sq_abs]; ring
    unfold Quat.normSq
    dsimp only
    exact shepperd_branch_y (|2 * y|) w x y z habs0 habs2 hp
  · -- last diagonal branch
    have htr : 1 + (1 - 2 * (x ^ 2 + y ^ 2)) - (1 - 2 * (y ^ 2 + z ^ 2)) -
        (1 - 2 * (x ^ 2 + z ^ 2)) = (2 * z) ^ 2 := by ring
    rw [htr, Real.sqrt_sq_eq_abs]
    have hz0 : z ≠ 0 := by
      intro h0
      have hz2 : z ^ 2 = 0 := by rw [h0]; ring
      have h3' := not_le.mp h3
      nlinarith [h3', hz2, sq_nonneg y]
    have habs0 : |2 * z| ≠ 0 := abs_ne_zero.mpr (mul_ne_zero two_ne_zero hz0)
    have habs2 : |2 * z| ^ 2 = 4 * z ^ 2 := by rw [sq_abs]; ring
    unfold Quat.normSq
    dsimp only
    exact shepperd_branch_z (|2 * z|) w x y z habs0 habs2 hp

theorem normSq_fromAxisAngle (axis : Vec3) (angle : ℝ) (r : Rotation)
    (h : Rotation.fromAxisAngle axis angle = .ok r) : r.q.normSq = 1 := by
  unfold Rotation.fromAxisAngle at h
  split_ifs at h with h1 h2
  · injection h with h
    rw [← h]
    norm_num [Rotation.identity, Quat.normSq]
  · injection h with h
    rw [← h]
    unfold Quat.normSq
    dsimp only
    have hn0 : axis.norm ≠ 0 := ne_of_gt (Vec3.norm_pos axis h2)
    have hn2 : axis.norm ^ 2 = axis.x ^ 2 + axis.y ^ 2 + axis.z ^ 2 := by
      rw [Vec3.sq_norm]; rfl
    have htrig := Real.sin_sq_add_cos_sq (angle / 2)
    field_simp
    linear_combination -(Real.sin (angle / 2)) ^ 2 * hn2 + axis.norm ^ 2 * htrig

theorem normSq_from_rotation_vector (psi : Vec3) :
    (Rotation.from_rotation_vector psi).q.normSq = 1 := by
  unfold Rotation.from_rotation_vector
  split_ifs with h1
  · norm_num [Rotation.identity, Quat.normSq]
  · unfold Quat.normSq
    dsimp only
    have hn0 : psi.norm ≠ 0 := ne_of_gt (Vec3.norm_pos psi h1)
    have hn2 : psi.norm ^ 2 = psi.x ^ 2 + psi.y ^ 2 + psi.z ^ 2 := by
      rw [Vec3.sq_norm]; rfl
    have htrig := Real.sin_sq_add_cos_sq (psi.norm / 2)
    field_simp
    linear_combination -(Real.sin (psi.norm / 2)) ^ 2 * hn2 + psi.norm ^ 2 * htrig

theorem normSq_from_quaternion (q : Quat) (r : Rotation)
    (h : Rotation.from_quaternion q = .ok r) : r.q.normSq = 1 := by
  unfold Rotation.from_quaternion at h
  split_ifs at h with h1
  · injection h with h
    rw [← h]
    unfold Quat.smul Quat.normSq
    dsimp only
    have hn2 : q.norm ^ 2 = q.normSq := quat_sq_norm q
    unfold Quat.normSq at hn2
    field_simp
    linear_combination -hn2

/-- Claim C10: every rotation produced by a constructor (default, axis-angle,
rotation vector, quaternion, or a valid rotation matrix), and every
composition or inversion of unit rotations, stores a quaternion of norm one
(exactly, in the real-valued model). -/
theorem c10_unit_norm_invariant :
    Rotation.identity.q.normSq = 1 ∧
    (∀ (axis : Vec3) (angle : ℝ) (r : Rotation),
      Rotation.fromAxisAngle axis angle = .ok r → r.q.normSq = 1) ∧
    (∀ psi : Vec3, (Rotation.from_rotation_vector psi).q.normSq = 1) ∧
    (∀ (q : Quat) (r : Rotation),
      Rotation.from_quaternion q = .ok r → r.q.normSq = 1) ∧
    (∀ p : Quat, p.normSq = 1 →
      (Rotation.from_rotation_matrix (Rotation.get_rotation_matrix ⟨p⟩)).q.normSq = 1) ∧
    (∀ a b : Rotation, a.q.normSq = 1 → b.q.normSq = 1 →
      (a.compose b).q.normSq = 1) ∧
    (∀ a : Rotation, a.q.normSq = 1 → a.inv.q.normSq = 1) := by
  refine ⟨by norm_num [Rotation.identity, Quat.normSq], normSq_fromAxisAngle,
    normSq_from_rotation_vector, normSq_from_quaternion, normSq_from_rotation_matrix,
    ?_, ?_⟩
  · intro a b ha hb
    unfold Rotation.compose
    rw [Quat.normSq_mul, ha, hb]
    norm_num
  · intro a ha
    unfold Rotation.inv Quat.conj Quat.normSq
    unfold Quat.normSq at ha
    dsimp only
    linear_combination ha

/-- Witness for claim C10 at concrete inputs exercising each clause. -/
theorem c10_unit_norm_invariant_witness :
    (Rotation.compose ⟨⟨3 / 5, 4 / 5, 0, 0⟩⟩ ⟨⟨5 / 13, 0, 12 / 13, 0⟩⟩).q.normSq = 1 ∧
    (Rotation.from_rotation_matrix
      (Rotation.get_rotation_matrix ⟨⟨3 / 5, 4 / 5, 0, 0⟩⟩)).q.normSq = 1 ∧
    (Rotation.from_rotation_vector ⟨0.3, 0.4, 0⟩).q.normSq = 1 := by
  refine ⟨?_, ?_, ?_⟩
  · exact c10_unit_norm_invariant.2.2.2.2.2.1 ⟨⟨3 / 5, 4 / 5, 0, 0⟩⟩
      ⟨⟨5 / 13, 0, 12 / 13, 0⟩⟩ (by norm_num [Quat.normSq]) (by norm_num [Quat.normSq])
  · exact c10_unit_norm_invariant.2.2.2.2.1 ⟨3 / 5, 4 / 5, 0, 0⟩
      (by norm_num [Quat.normSq])
  · exact c10_unit_norm_invariant.2.2.1 ⟨0.3, 0.4, 0⟩

theorem act_mul (p q : Quat) (v : Vec3) :
    Rotation.act ⟨p.mul q⟩ v = Rotation.act ⟨p⟩ (Rotation.act ⟨q⟩ v) := by
  obtain ⟨pw, px, py, pz⟩ := p
  obtain ⟨qw, qx, qy, qz⟩ := q
  obtain ⟨v1, v2, v3⟩ := v
  unfold Rotation.act Quat.mul Quat.conj
  simp only [Vec3.mk.injEq]
  refine ⟨by ring, by ring, by ring⟩

theorem act_dot (a : Rotation) (v : Vec3) :
    Vec3.dot (a.act v) (a.act v) = a.q.normSq ^ 2 * Vec3.dot v v := by
  obtain ⟨⟨w, x, y, z⟩⟩ := a
  obtain ⟨v1, v2, v3⟩ := v
  unfold Rotation.act Quat.mul Quat.conj Quat.normSq Vec3.dot
  dsimp only
  ring

theorem cross_lagrange (a b : Vec3) :
    Vec3.normSq (Vec3.cross a b) =
      Vec3.dot a a * Vec3.dot b b - (Vec3.dot a b) ^ 2 := by
  obtain ⟨a1, a2, a3⟩ := a
  obtain ⟨b1, b2, b3⟩ := b
  unfold Vec3.normSq Vec3.cross Vec3.dot
  dsimp only
  ring

theorem mul_conj_cancel (p q : Quat) :
    (p.mul q).mul q.conj = Quat.smul q.normSq p := by
  obtain ⟨pw, px, py, pz⟩ := p
  obtain ⟨qw, qx, qy, qz⟩ := q
  unfold Quat.mul Quat.conj Quat.smul Quat.normSq
  simp only [Quat.mk.injEq]
  refine ⟨by ring, by ring, by ring, by ring⟩

theorem quat_smul_one (p : Quat) : Quat.smul 1 p = p := by
  obtain ⟨pw, px, py, pz⟩ := p
  unfold Quat.smul
  simp only [Quat.mk.injEq]
  norm_num

theorem min_arc_maps (w k : ℝ) (g n : Vec3)
    (hg : Vec3.dot g g = 1)
    (hw : w ^ 2 = (1 + Vec3.dot g n) / 2)
    (hk : k ^ 2 * Vec3.normSq (Vec3.cross g n) = (1 - Vec3.dot g n) / 2)
    (hwk : 2 * (w * k) = 1) :
    Rotation.act ⟨⟨w, k * (Vec3.cross g n).x, k * (Vec3.cross g n).y,
      k * (Vec3.cross g n).z⟩⟩ g = n := by
  obtain ⟨g1, g2, g3⟩ := g
  obtain ⟨n1, n2, n3⟩ := n
  unfold Vec3.dot at hg hw hk
  unfold Vec3.normSq Vec3.cross at hk
  dsimp only at hg hw hk
  unfold Rotation.act Vec3.cross Quat.mul Quat.conj
  dsimp only
  simp only [Vec3.mk.injEq]
  have hP : (2 * (w * k) - 1) * (g1 * g1 + g2 * g2 + g3 * g3 - 1) = 0 := by
    rw [show 2 * (w * k) - 1 = 0 from by linarith [hwk]]
    ring
  refine ⟨?_, ?_, ?_⟩
  · linear_combination g1 * hw - g1 * hk -
      ((g1 * n1 + g2 * n2 + g3 * n3) * g1) * hwk + n1 * hP + n1 * hwk + n1 * hg
  · linear_combination g2 * hw - g2 * hk -
      ((g1 * n1 + g2 * n2 + g3 * n3) * g2) * hwk + n2 * hP + n2 * hwk + n2 * hg
  · linear_combination g3 * hw - g3 * hk -
      ((g1 * n1 + g2 * n2 + g3 * n3) * g3) * hwk + n3 * hP + n3 * hwk + n3 * hg

theorem dot_cross_smul (g t : Vec3) (s : ℝ) :
    Vec3.dot (Vec3.cross g (Vec3.smul s t)) t = 0 := by
  obtain ⟨g1, g2, g3⟩ := g
  obtain ⟨t1, t2, t3⟩ := t
  unfold Vec3.dot Vec3.cross Vec3.smul
  dsimp only
  ring

theorem act_one (v : Vec3) : Rotation.act ⟨⟨1, 0, 0, 0⟩⟩ v = v := by
  obtain ⟨v1, v2, v3⟩ := v
  unfold Rotation.act Quat.mul Quat.conj
  simp only [Vec3.mk.injEq]
  refine ⟨by ring, by ring, by ring⟩

theorem quat_one_mul (q : Quat) : Quat.mul ⟨1, 0, 0, 0⟩ q = q := by
  obtain ⟨qw, qx, qy, qz⟩ := q
  unfold Quat.mul
  simp only [Quat.mk.injEq]
  refine ⟨by ring, by ring, by ring, by ring⟩

theorem get_rotation_vector_dot (a : Rotation) (v : Vec3)
    (h : a.q.x * v.x + a.q.y * v.y + a.q.z * v.z = 0) :
    Vec3.dot a.get_rotation_vector v = 0 := by
  obtain ⟨⟨w, x, y, z⟩⟩ := a
  dsimp only at h
  unfold Rotation.get_rotation_vector
  dsimp only
  split_ifs with h1 h2
  · unfold Vec3.dot Vec3.zero
    dsimp only
    ring
  · unfold Vec3.dot Vec3.smul
    dsimp only
    linear_combination (-(2 * Real.arccos (-w) / Real.sqrt (x ^ 2 + y ^ 2 + z ^ 2))) * h
  · unfold Vec3.dot Vec3.smul
    dsimp only
    linear_combination (2 * Real.arccos w / Real.sqrt (x ^ 2 + y ^ 2 + z ^ 2)) * h

theorem arc_rotation_maps (g n : Vec3) (hg : Vec3.dot g g = 1)
    (hn : Vec3.dot n n = 1) (hanti : Vec3.dot g n ≠ -1) :
    Rotation.act ⟨arc_rotation g n⟩ g = n := by
  have hN : Vec3.normSq (Vec3.cross g n) = 1 - Vec3.dot g n ^ 2 := by
    rw [cross_lagrange, hg, hn]; ring
  have hc2 : Vec3.dot g n ^ 2 ≤ 1 := by
    nlinarith [Vec3.normSq_nonneg (Vec3.cross g n), hN]
  have hcl : -1 ≤ Vec3.dot g n := by nlinarith [hc2]
  have hcu : Vec3.dot g n ≤ 1 := by nlinarith [hc2]
  have hcos : Real.cos (Real.arccos (Vec3.dot g n)) = Vec3.dot g n :=
    Real.cos_arccos hcl hcu
  unfold arc_rotation
  by_cases hceq : Vec3.dot g n = 1
  · -- parallel case: the two directions coincide and the arc is trivial
    have hdiff : Vec3.normSq ⟨g.x - n.x, g.y - n.y, g.z - n.z⟩ = 0 := by
      unfold Vec3.normSq
      unfold Vec3.dot at hg hn hceq
      dsimp only
      linear_combination hg + hn - 2 * hceq
    have hgn : g = n := by
      have h0 := (Vec3.normSq_eq_zero_iff _).mp hdiff
      obtain ⟨g1, g2, g3⟩ := g
      obtain ⟨n1, n2, n3⟩ := n
      simp only [Vec3.zero, Vec3.mk.injEq] at h0
      simp only [Vec3.mk.injEq]
      refine ⟨by linarith [h0.1], by linarith [h0.2.1], by linarith [h0.2.2]⟩
    rw [hceq, Real.arccos_one]
    norm_num
    rw [act_one]
    exact hgn
  · have hclt : Vec3.dot g n < 1 := lt_of_le_of_ne hcu hceq
    have hcgt : -1 < Vec3.dot g n := lt_of_le_of_ne hcl (Ne.symm hanti)
    have haxn : (Vec3.cross g n).norm = Real.sqrt (1 - Vec3.dot g n ^ 2) := by
      rw [Vec3.norm, hN]
    have haxp : 0 < (Vec3.cross g n).norm := by
      rw [haxn]
      exact Real.sqrt_pos.mpr (by nlinarith)
    have hax2 : (Vec3.cross g n).norm ^ 2 = Vec3.normSq (Vec3.cross g n) :=
      Vec3.sq_norm _
    have hw2 : Real.cos (Real.arccos (Vec3.dot g n) / 2) ^ 2 =
        (1 + Vec3.dot g n) / 2 := by
      rw [Real.cos_sq, show 2 * (Real.arccos (Vec3.dot g n) / 2) =
        Real.arccos (Vec3.dot g n) by ring, hcos]
      ring
    have hs2 : Real.sin (Real.arccos (Vec3.dot g n) / 2) ^ 2 =
        (1 - Vec3.dot g n) / 2 := by
      rw [Real.sin_sq, hw2]; ring
    have hk : (Real.sin (Real.arccos (Vec3.dot g n) / 2) / (Vec3.cross g n).norm) ^ 2 *
        Vec3.normSq (Vec3.cross g n) = (1 - Vec3.dot g n) / 2 := by
      rw [div_pow, hax2, div_mul_cancel₀ _
        (ne_of_gt (by rw [hN]; nlinarith : (0 : ℝ) < Vec3.normSq (Vec3.cross g n)))]
      exact hs2
    have hsinθ : Real.sin (Real.arccos (Vec3.dot g n)) =
        Real.sqrt (1 - Vec3.dot g n ^ 2) := Real.sin_arccos _
    have h2sc : 2 * Real.sin (Real.arccos (Vec3.dot g n) / 2) *
        Real.cos (Real.arccos (Vec3.dot g n) / 2) =
        Real.sin (Real.arccos (Vec3.dot g n)) := by
      rw [← Real.sin_two_mul, show 2 * (Real.arccos (Vec3.dot g n) / 2) =
        Real.arccos (Vec3.dot g n) by ring]
    have haxsin : (Vec3.cross g n).norm = Real.sin (Real.arccos (Vec3.dot g n)) := by
      rw [haxn, ← hsinθ]
    have hwk : 2 * (Real.cos (Real.arccos (Vec3.dot g n) / 2) *
        (Real.sin (Real.arccos (Vec3.dot g n) / 2) / (Vec3.cross g n).norm)) = 1 := by
      field_simp
      linear_combination h2sc - haxsin
    have := min_arc_maps (Real.cos (Real.arccos (Vec3.dot g n) / 2))
      (Real.sin (Real.arccos (Vec3.dot g n) / 2) / (Vec3.cross g n).norm)
      g n hg hw2 hk hwk
    exact this

/-- Claim C8: for every unit reference triad and every non-zero target not
anti-parallel to the rotated first basis vector, the smallest-rotation
mapping takes the first basis vector exactly to the normalized target, and
the rotation vector of the relative rotation is perpendicular to the target
(no twist about the target axis). -/
theorem c8_smallest_rotation_maps (lam : Rotation) (t : Vec3)
    (hlam : lam.q.normSq = 1) (ht : t ≠ Vec3.zero)
    (hanti : Vec3.dot (lam.act e1) (Vec3.smul (1 / t.norm) t) ≠ -1) :
    (smallest_rotation lam t).act e1 = Vec3.smul (1 / t.norm) t ∧
    Vec3.dot ((smallest_rotation lam t).compose lam.inv).get_rotation_vector t = 0 := by
  have hnt : 0 < t.norm := Vec3.norm_pos t ht
  have htn : Vec3.dot (Vec3.smul (1 / t.norm) t) (Vec3.smul (1 / t.norm) t) = 1 := by
    have h2 : t.norm ^ 2 = t.x ^ 2 + t.y ^ 2 + t.z ^ 2 := by
      rw [Vec3.sq_norm]; rfl
    have hn0 : t.norm ≠ 0 := ne_of_gt hnt
    unfold Vec3.dot Vec3.smul
    dsimp only
    field_simp
    linear_combination -h2
  have hg : Vec3.dot (lam.act e1) (lam.act e1) = 1 := by
    rw [act_dot, hlam]
    norm_num [Vec3.dot, e1]
  constructor
  · show Rotation.act
      ⟨Quat.mul (arc_rotation (lam.act e1) (Vec3.smul (1 / t.norm) t)) lam.q⟩ e1 = _
    rw [act_mul]
    exact arc_rotation_maps _ _ hg htn hanti
  · have hrel : ((smallest_rotation lam t).compose lam.inv).q =
        arc_rotation (lam.act e1) (Vec3.smul (1 / t.norm) t) := by
      show Quat.mul (Quat.mul (arc_rotation _ _) lam.q) lam.q.conj = _
      rw [mul_conj_cancel, hlam, quat_smul_one]
    apply get_rotation_vector_dot
    rw [hrel]
    have hct : Vec3.dot (Vec3.cross (lam.act e1) (Vec3.smul (1 / t.norm) t)) t = 0 :=
      dot_cross_smul _ t _
    unfold Vec3.dot at hct
    unfold arc_rotation
    dsimp only
    linear_combination
      (Real.sin (Real.arccos (Vec3.dot (lam.act e1) (Vec3.smul (1 / t.norm) t)) / 2) /
        (Vec3.cross (lam.act e1) (Vec3.smul (1 / t.norm) t)).norm) * hct

/-- Witness for claim C8 at the identity triad and the target `(1, 0.5, 0)`
of the notebook. -/
theorem c8_smallest_rotation_maps_witness :
    (smallest_rotation Rotation.identity ⟨1, 1 / 2, 0⟩).act e1 =
      Vec3.smul (1 / Vec3.norm ⟨1, 1 / 2, 0⟩) ⟨1, 1 / 2, 0⟩ ∧
    Vec3.dot ((smallest_rotation Rotation.identity ⟨1, 1 / 2, 0⟩).compose
      Rotation.identity.inv).get_rotation_vector ⟨1, 1 / 2, 0⟩ = 0 := by
  have ht : (⟨1, 1 / 2, 0⟩ : Vec3) ≠ Vec3.zero := by
    intro h
    simp only [Vec3.zero, Vec3.mk.injEq] at h
    exact one_ne_zero h.1
  have hnt : 0 < Vec3.norm ⟨1, 1 / 2, 0⟩ := Vec3.norm_pos _ ht
  refine c8_smallest_rotation_maps Rotation.identity ⟨1, 1 / 2, 0⟩
    (by norm_num [Rotation.identity, Quat.normSq]) ht ?_
  have hact : Rotation.identity.act e1 = e1 := act_one e1
  rw [hact]
  have hdot : Vec3.dot e1 (Vec3.smul (1 / Vec3.norm ⟨1, 1 / 2, 0⟩) ⟨1, 1 / 2, 0⟩) =
      1 / Vec3.norm ⟨1, 1 / 2, 0⟩ := by
    unfold Vec3.dot Vec3.smul e1
    dsimp only
    ring
  rw [hdot]
  intro h
  have : 0 < 1 / Vec3.norm ⟨1, 1 / 2, 0⟩ := by positivity
  linarith
